import Mathlib

set_option maxHeartbeats 1000000

/- Shallow embedding of the dependency-graph integrity engine of the MSP Lite
   UI (the App.jsx variants). JavaScript values that can appear in dependency
   records are modelled by `JSVal`; `undefined` and `null` are distinguished
   because `Number(null) = 0` while `Number(undefined) = NaN`. -/

inductive JSVal where
  | undef
  | null
  | num (n : Int)
  | str (s : String)
deriving DecidableEq

/-- Loose `v == null` test used by `normalizeId` (matches null and undefined). -/
def JSVal.isNullish : JSVal → Bool
  | .undef => true
  | .null => true
  | _ => false

/-- JavaScript truthiness for the modelled values (`!v` is `!truthy v`). -/
def JSVal.truthy : JSVal → Bool
  | .undef => false
  | .null => false
  | .num n => n != 0
  | .str s => !s.isEmpty

/-- The conversion `String(v)` on the modelled values. -/
def jsString : JSVal → String
  | .undef => "undefined"
  | .null => "null"
  | .num n => toString n
  | .str s => s

/-- Value of a non-empty all-digit character sequence, `none` otherwise. -/
def digitsVal? (l : List Char) : Option Nat :=
  if l.isEmpty then none
  else if l.all Char.isDigit then
    some (l.foldl (fun acc c => acc * 10 + (c.toNat - 48)) 0)
  else none

/-- The conversion `Number(v)` restricted to the integer fragment the app
    feeds it: integer literals (optionally negative, surrounded by
    whitespace) parse, the empty string is 0, any other string is NaN
    (`none`). -/
def jsToNumber : JSVal → Option Int
  | .undef => none
  | .null => some 0
  | .num n => some n
  | .str s =>
    let t := ((s.data.dropWhile Char.isWhitespace).reverse.dropWhile
      Char.isWhitespace).reverse
    if t.isEmpty then some 0
    else
      match t with
      | '-' :: rest =>
        match digitsVal? rest with
        | some n => some (-(n : Int))
        | none => none
      | _ =>
        match digitsVal? t with
        | some n => some ((n : Int))
        | none => none

/-- The `a ?? b` operator (nullish coalescing). -/
def jsCoalesce (a b : JSVal) : JSVal :=
  if a.isNullish then b else a

/-- normalizeId from App.jsx: `v == null ? null : String(v)`. -/
def normalizeId (v : JSVal) : Option String :=
  if v.isNullish then none else some (jsString v)

/-- An element of the `depPairs` list as consumed by the graph utilities:
    only the `predId` and `succId` fields are inspected (and re-normalized)
    by `buildAdjacency`, `wouldCreateCycle` and `isDuplicateEdge`. -/
structure DepPair where
  predId : JSVal
  succId : JSVal
deriving DecidableEq

/-- Insertion-ordered string-keyed map of buckets, the model of the JS `Map`
    of arrays used for the adjacency and the two edge indexes. -/
abbrev Adj := List (String × List String)

/-- Lookup `m.get(k) || []` (equivalently `m.get(k) ?? []`). -/
def bucketGet {α : Type} (m : List (String × List α)) (k : String) : List α :=
  match m with
  | [] => []
  | (k', vs) :: rest => if k' = k then vs else bucketGet rest k

/-- The `if (!m.has(k)) m.set(k, []); m.get(k).push(v)` idiom: append `v` to
    the bucket of `k`, creating the bucket at the end of the map if absent. -/
def bucketPush {α : Type} (m : List (String × List α)) (k : String) (v : α) :
    List (String × List α) :=
  match m with
  | [] => [(k, [v])]
  | (k', vs) :: rest =>
    if k' = k then (k', vs ++ [v]) :: rest else (k', vs) :: bucketPush rest k v

/-- One iteration of the loop in `buildAdjacency`: skip edges whose
    normalized endpoint ids are null or empty, otherwise push the successor
    on the predecessor's bucket. -/
def buildStep (adj : Adj) (e : DepPair) : Adj :=
  match normalizeId e.predId, normalizeId e.succId with
  | some p, some s => if p.isEmpty || s.isEmpty then adj else bucketPush adj p s
  | _, _ => adj

/-- buildAdjacency from App.jsx. -/
def buildAdjacency (E : List DepPair) : Adj :=
  E.foldl buildStep []

/-- All successor ids stored in an adjacency map (the nodes the DFS can ever
    move to); used to size the DFS fuel. -/
def adjTargets (adj : Adj) : List String :=
  match adj with
  | [] => []
  | (_, vs) :: rest => vs ++ adjTargets rest

/-- One pass of `for (const k of nx) if (dfs(k)) return true;`: run `f` over
    the successor list, threading the visited set, stopping at the first
    `true` (or at fuel exhaustion, signalled by `none`). -/
def dfsList (f : String → List String → Option (Bool × List String)) :
    List String → List String → Option (Bool × List String)
  | [], seen => some (false, seen)
  | k :: ks, seen =>
    match f k seen with
    | none => none
    | some (true, s1) => some (true, s1)
    | some (false, s1) => dfsList f ks s1

/-- The recursive `dfs` inside `wouldCreateCycle`: `dfs(n)` is true when
    `n === P`, false when `n` was already seen, and otherwise marks `n` as
    seen and searches its successors. The `fuel` argument makes the
    recursion structural; the theorems below show the fuel chosen by
    `runDfs` is never exhausted. -/
def dfsF (adj : Adj) (P : String) :
    Nat → String → List String → Option (Bool × List String)
  | 0, _, _ => none
  | fuel + 1, n, seen =>
    if n = P then some (true, seen)
    else if n ∈ seen then some (false, seen)
    else dfsList (fun k s => dfsF adj P fuel k s) (bucketGet adj n) (n :: seen)

/-- Fuel bound: one more than the number of nodes the search can stand on. -/
def dfsFuel (adj : Adj) (S : String) : Nat :=
  (S :: adjTargets adj).length + 1

/-- The call `dfs(S)` at the end of `wouldCreateCycle`: start at `S` with an
    empty visited set, searching for `P`. -/
def runDfs (adj : Adj) (P S : String) : Option (Bool × List String) :=
  dfsF adj P (dfsFuel adj S) S []

/-- The adjacency used by `wouldCreateCycle`: current edges plus the
    proposed edge `P → S` appended. -/
def proposedAdj (E : List DepPair) (P S : String) : Adj :=
  bucketPush (buildAdjacency E) P S

/-- wouldCreateCycle from App.jsx: reject null/empty ids and self loops,
    then report whether `S` can reach `P` in the adjacency extended with the
    proposed edge. -/
def wouldCreateCycle (E : List DepPair) (predId succId : JSVal) : Bool :=
  match normalizeId predId, normalizeId succId with
  | some P, some S =>
    if P.isEmpty || S.isEmpty then true
    else if P = S then true
    else
      match runDfs (proposedAdj E P S) P S with
      | some (b, _) => b
      | none => false
  | _, _ => true

/-- isDuplicateEdge from App.jsx: some existing edge has the same ordered
    string-normalized endpoint pair. -/
def isDuplicateEdge (E : List DepPair) (predId succId : JSVal) : Bool :=
  E.any (fun e =>
    (normalizeId e.predId == normalizeId predId) &&
    (normalizeId e.succId == normalizeId succId))

/-- A raw dependency record from the backend: every field-name alias
    consulted by the extractors, each defaulting to JavaScript `undefined`
    when absent. The JS field `Type` is written `Type'` because `Type` is a
    Lean keyword. -/
structure RawDep where
  PredecessorTaskId : JSVal := .undef
  PredecessorTaskID : JSVal := .undef
  predecessorTaskId : JSVal := .undef
  predecessorTaskID : JSVal := .undef
  PredecessorId : JSVal := .undef
  predecessorId : JSVal := .undef
  predTaskId : JSVal := .undef
  predId : JSVal := .undef
  SuccessorTaskId : JSVal := .undef
  SuccessorTaskID : JSVal := .undef
  successorTaskId : JSVal := .undef
  successorTaskID : JSVal := .undef
  SuccessorId : JSVal := .undef
  successorId : JSVal := .undef
  succTaskId : JSVal := .undef
  succId : JSVal := .undef
  TaskDependencyId : JSVal := .undef
  TaskDependencyID : JSVal := .undef
  taskDependencyId : JSVal := .undef
  taskDependencyID : JSVal := .undef
  DependencyId : JSVal := .undef
  dependencyId : JSVal := .undef
  LinkType : JSVal := .undef
  linkType : JSVal := .undef
  DependencyType : JSVal := .undef
  dependencyType : JSVal := .undef
  Type' : JSVal := .undef
  type : JSVal := .undef
  LagDays : JSVal := .undef
  lagDays : JSVal := .undef
  Lag : JSVal := .undef
  lag : JSVal := .undef
deriving DecidableEq

/-- getPredId from App.jsx. -/
def getPredId (d : RawDep) : JSVal :=
  jsCoalesce d.PredecessorTaskId (jsCoalesce d.PredecessorTaskID
    (jsCoalesce d.predecessorTaskId (jsCoalesce d.predecessorTaskID
      (jsCoalesce d.PredecessorId (jsCoalesce d.predecessorId
        (jsCoalesce d.predTaskId d.predId))))))

/-- getSuccId from App.jsx. -/
def getSuccId (d : RawDep) : JSVal :=
  jsCoalesce d.SuccessorTaskId (jsCoalesce d.SuccessorTaskID
    (jsCoalesce d.successorTaskId (jsCoalesce d.successorTaskID
      (jsCoalesce d.SuccessorId (jsCoalesce d.successorId
        (jsCoalesce d.succTaskId d.succId))))))

/-- getDepId from App.jsx: the first present dependency-id alias coerced to a
    finite number, `none` otherwise. -/
def getDepId (d : RawDep) : Option Int :=
  jsToNumber (jsCoalesce d.TaskDependencyId (jsCoalesce d.TaskDependencyID
    (jsCoalesce d.taskDependencyId (jsCoalesce d.taskDependencyID
      (jsCoalesce d.DependencyId d.dependencyId)))))

/-- The `.toUpperCase()` call, modelled character-wise (ASCII). -/
def jsToUpper (s : String) : String :=
  String.mk (s.data.map Char.toUpper)

/-- getType as it appears (twice) in part_000 of the sources: aliases
    `LinkType | linkType | Type | type`, default `"FS"`, upper-cased. -/
def getType (d : RawDep) : String :=
  jsToUpper (jsString (jsCoalesce d.LinkType (jsCoalesce d.linkType
    (jsCoalesce d.Type' (jsCoalesce d.type (.str "FS"))))))

/-- getType as it appears in part_001 (and in the second variant inside
    src/App.jsx): additionally consults `DependencyType | dependencyType`
    between `linkType` and `Type`. -/
def getType_v1 (d : RawDep) : String :=
  jsToUpper (jsString (jsCoalesce d.LinkType (jsCoalesce d.linkType
    (jsCoalesce d.DependencyType (jsCoalesce d.dependencyType
      (jsCoalesce d.Type' (jsCoalesce d.type (.str "FS"))))))))

/-- getLag from App.jsx: first present lag alias (default 0) coerced to a
    finite number, else 0. -/
def getLag (d : RawDep) : Int :=
  match jsToNumber (jsCoalesce d.LagDays (jsCoalesce d.lagDays
    (jsCoalesce d.Lag (jsCoalesce d.lag (.num 0))))) with
  | some n => n
  | none => 0

/-- A normalized dependency edge as produced by the `depPairs` memo. -/
structure NormEdge where
  depId : Option Int
  predId : String
  succId : String
  type : String
  lag : Int
  raw : RawDep
deriving DecidableEq

/-- The body of the `depPairs` loop for one record: `none` when the record
    is dropped (`!pred || !succ`), otherwise the normalized edge pushed. -/
def normRecord (d : RawDep) : Option NormEdge :=
  match normalizeId (getPredId d), normalizeId (getSuccId d) with
  | some pred, some succ =>
    if pred.isEmpty || succ.isEmpty then none
    else some { depId := getDepId d, predId := pred, succId := succ,
                type := getType d, lag := getLag d, raw := d }
  | _, _ => none

/-- depPairs from App.jsx: normalize each raw record in order, dropping the
    malformed ones. -/
def depPairs (deps : List RawDep) : List NormEdge :=
  deps.filterMap normRecord

/-- The predecessor or successor id of a record is missing after extraction
    (nullish or empty): the condition under which `depPairs` drops it. -/
def idMissing (v : JSVal) : Bool :=
  match normalizeId v with
  | none => true
  | some s => s.isEmpty

/-- predecessorsByTask from App.jsx: edges bucketed by their successor id. -/
def predecessorsByTask (l : List NormEdge) : List (String × List NormEdge) :=
  l.foldl (fun m e => bucketPush m e.succId e) []

/-- successorsByTask from App.jsx: edges bucketed by their predecessor id. -/
def successorsByTask (l : List NormEdge) : List (String × List NormEdge) :=
  l.foldl (fun m e => bucketPush m e.predId e) []

/-- The rejection reasons of the mutation gate; each corresponds to one
    thrown error message of `addDependencyGuarded` (`MissingEndpoint` is the
    "Predecessor and successor are required" error). -/
inductive RejectionReason where
  | MissingEndpoint
  | SelfDependency
  | DuplicateEdge
  | CycleDetected
deriving DecidableEq

/-- The endpoint-validation portion of addDependencyGuarded (the project-id
    presence check and the network call that follow it are outside the
    edges-and-ids contract of the gate): missing (falsy) endpoint first,
    then self dependency on string-converted ids, then duplicate, then
    cycle. -/
def canProposeEdge (E : List DepPair)
    (predecessorTaskId successorTaskId : JSVal) : Except RejectionReason Unit :=
  if !predecessorTaskId.truthy || !successorTaskId.truthy then
    .error .MissingEndpoint
  else if jsString predecessorTaskId = jsString successorTaskId then
    .error .SelfDependency
  else if isDuplicateEdge E predecessorTaskId successorTaskId then
    .error .DuplicateEdge
  else if wouldCreateCycle E predecessorTaskId successorTaskId then
    .error .CycleDetected
  else
    .ok ()

/-- Reachability in an adjacency map: reflexive-transitive closure of
    "b is in a's bucket". -/
inductive Reach (adj : Adj) : String → String → Prop
  | refl (a : String) : Reach adj a a
  | step {a b c : String} : b ∈ bucketGet adj a → Reach adj b c → Reach adj a c

/-- Edge `e` carries the (normalized, non-empty) connection a → b. -/
def edgeConnects (e : DepPair) (a b : String) : Prop :=
  normalizeId e.predId = some a ∧ normalizeId e.succId = some b ∧
    a ≠ "" ∧ b ≠ ""

/-- Some edge of `E` connects a → b. -/
def hasEdge (E : List DepPair) (a b : String) : Prop :=
  ∃ e ∈ E, edgeConnects e a b

/-- A path a → … → b over the edges of `E` alone (the spec's "a path
    successor → … → predecessor already exists in the current graph"). -/
inductive ReachE (E : List DepPair) : String → String → Prop
  | refl (a : String) : ReachE E a a
  | step {a b c : String} : hasEdge E a b → ReachE E b c → ReachE E a c

/-- The DFS packaged as a reachability decider: does `a` reach `b`. -/
def reaches (adj : Adj) (a b : String) : Bool :=
  match runDfs adj b a with
  | some (r, _) => r
  | none => false

/-- The graph of `E` is acyclic: no edge p → s of `E` is closed back by a
    path s → … → p (decidable form used to state acyclicity hypotheses). -/
def acyclicB (E : List DepPair) : Bool :=
  E.all (fun e =>
    match normalizeId e.predId, normalizeId e.succId with
    | some p, some s =>
      if p.isEmpty || s.isEmpty then true
      else !(reaches (buildAdjacency E) s p)
    | _, _ => true)

/-- The edge set {1 → 2, 2 → 3} of the spec's concrete scenario 1. -/
def exChain : List DepPair := [⟨.num 1, .num 2⟩, ⟨.num 2, .num 3⟩]

/-- The edge set {1 → 2, 1 → 3} of the spec's concrete scenario 6. -/
def exFan : List DepPair := [⟨.num 1, .num 2⟩, ⟨.num 1, .num 3⟩]

/-- The raw record {PredecessorId: "5", SuccessorId: "9", Lag: "3"} of the
    spec's concrete scenario 3. -/
def recLag : RawDep :=
  { PredecessorId := .str "5", SuccessorId := .str "9", Lag := .str "3" }

/-- A raw record with no predecessor and no successor field at all. -/
def recBare : RawDep := {}

/-- A raw record whose only link-type field is `DependencyType`. -/
def recDT : RawDep :=
  { PredecessorId := .str "1", SuccessorId := .str "2",
    DependencyType := .str "ss" }

/-- The normalized edge produced from `recLag`. -/
def edge59 : NormEdge :=
  { depId := none, predId := "5", succId := "9", type := "FS", lag := 3,
    raw := recLag }

/-- Invariant delivered by a failed DFS: every node added to the visited set
    after `seen` is not the target and has all its successors visited. -/
def GoodFrom (adj : Adj) (P : String) (seen s' : List String) : Prop :=
  ∀ m ∈ s', m ∉ seen → m ≠ P ∧ ∀ k ∈ bucketGet adj m, k ∈ s'

/-- Number of distinct candidate nodes not yet visited; the DFS measure. -/
def remCount (U seen : List String) : Nat :=
  (U.dedup.filter (fun x => decide (x ∉ seen))).length

instance : DecidableEq (Except RejectionReason Unit) := fun a b => by
  cases a <;> cases b <;>
    first
      | (rename_i x y;
         exact match decEq x y with
           | isTrue h => isTrue (by rw [h])
           | isFalse h => isFalse (fun hc => h (by cases hc; rfl)))
      | exact isFalse (fun h => by cases h)

/-- Pushing on a bucket appends to exactly that key's bucket. -/
theorem bucketGet_bucketPush {α : Type} (m : List (String × List α))
    (k : String) (v : α) (n : String) :
    bucketGet (bucketPush m k v) n =
      if n = k then bucketGet m n ++ [v] else bucketGet m n := by
  induction m with
  | nil =>
    by_cases h : n = k
    · subst h; simp [bucketPush, bucketGet]
    · simp only [bucketPush, bucketGet]
      rw [if_neg (fun hc : k = n => h hc.symm), if_neg h]
  | cons kv rest ih =>
    obtain ⟨k', vs⟩ := kv
    by_cases h1 : k' = k <;> by_cases h2 : k' = n
    · subst h1; subst h2
      simp [bucketPush, bucketGet]
    · subst h1
      simp only [bucketPush, bucketGet, if_pos rfl, if_neg h2]
      rw [if_neg (fun hc : n = k' => h2 hc.symm)]
    · subst h2
      simp only [bucketPush, bucketGet, if_neg h1]
      simp
    · simp only [bucketPush, bucketGet, if_neg h1, if_neg h2]
      exact ih

/-- Membership in the buckets of the fold that builds the two edge indexes. -/
theorem mem_bucketGet_foldl {α : Type} (key : α → String) :
    ∀ (l : List α) (m : List (String × List α)) (e : α) (k : String),
      e ∈ bucketGet (l.foldl (fun acc x => bucketPush acc (key x) x) m) k ↔
        e ∈ bucketGet m k ∨ (e ∈ l ∧ key e = k) := by
  intro l
  induction l with
  | nil => intro m e k; simp
  | cons x xs ih =>
    intro m e k
    rw [List.foldl_cons, ih, bucketGet_bucketPush]
    by_cases h : k = key x
    · subst h
      rw [if_pos rfl]
      simp only [List.mem_append, List.mem_cons, List.not_mem_nil, or_false]
      constructor
      · rintro ((hm | rfl) | ⟨hxs, hk⟩)
        · exact Or.inl hm
        · exact Or.inr ⟨Or.inl rfl, rfl⟩
        · exact Or.inr ⟨Or.inr hxs, hk⟩
      · rintro (hm | ⟨rfl | hxs, hk⟩)
        · exact Or.inl (Or.inl hm)
        · exact Or.inl (Or.inr rfl)
        · exact Or.inr ⟨hxs, hk⟩
    · rw [if_neg h]
      simp only [List.mem_cons]
      constructor
      · rintro (hm | ⟨hxs, hk⟩)
        · exact Or.inl hm
        · exact Or.inr ⟨Or.inr hxs, hk⟩
      · rintro (hm | ⟨rfl | hxs, hk⟩)
        · exact Or.inl hm
        · exact absurd hk.symm h
        · exact Or.inr ⟨hxs, hk⟩

/-- Every node reachable in one step is among the adjacency's targets. -/
theorem mem_adjTargets_of_mem_bucketGet {adj : Adj} {n k : String}
    (h : k ∈ bucketGet adj n) : k ∈ adjTargets adj := by
  induction adj with
  | nil => simp [bucketGet] at h
  | cons kv rest ih =>
    obtain ⟨k', vs⟩ := kv
    simp only [bucketGet] at h
    simp only [adjTargets, List.mem_append]
    by_cases h' : k' = n
    · rw [if_pos h'] at h; exact Or.inl h
    · rw [if_neg h'] at h; exact Or.inr (ih h)

/-- One `buildStep` adds exactly the connections carried by the edge. -/
theorem mem_bucketGet_buildStep (m : Adj) (e : DepPair) (a b : String) :
    b ∈ bucketGet (buildStep m e) a ↔
      b ∈ bucketGet m a ∨ edgeConnects e a b := by
  unfold buildStep edgeConnects
  cases hp : normalizeId e.predId with
  | none => simp
  | some p =>
    cases hs : normalizeId e.succId with
    | none => simp
    | some s =>
      by_cases hpe : p.isEmpty
      · have hp0 : p = "" := (String.isEmpty_iff p).mp hpe
        simp only [hpe, Bool.true_or, if_true, Option.some.injEq]
        constructor
        · exact Or.inl
        · rintro (hm | ⟨rfl, rfl, ha, hb⟩)
          · exact hm
          · exact absurd hp0 ha
      · by_cases hse : s.isEmpty
        · have hs0 : s = "" := (String.isEmpty_iff s).mp hse
          simp only [hpe, hse, Bool.false_or, if_true, Option.some.injEq]
          constructor
          · exact Or.inl
          · rintro (hm | ⟨rfl, rfl, ha, hb⟩)
            · exact hm
            · exact absurd hs0 hb
        · simp only [hpe, hse, Bool.or_self, Option.some.injEq]
          rw [if_neg (fun hc : (false = true) => by cases hc)]
          rw [bucketGet_bucketPush]
          by_cases hap : a = p
          · subst hap
            rw [if_pos rfl]
            simp only [List.mem_append, List.mem_cons, List.not_mem_nil,
              or_false]
            constructor
            · rintro (hm | rfl)
              · exact Or.inl hm
              · refine Or.inr ⟨trivial, rfl, ?_, ?_⟩
                · intro hc; rw [hc] at hpe; exact hpe rfl
                · intro hc; rw [hc] at hse; exact hse rfl
            · rintro (hm | ⟨-, rfl, -, -⟩)
              · exact Or.inl hm
              · exact Or.inr rfl
          · rw [if_neg hap]
            constructor
            · exact Or.inl
            · rintro (hm | ⟨hpa, -, -, -⟩)
              · exact hm
              · exact absurd hpa.symm hap

/-- Accumulator form of the `buildAdjacency` characterization. -/
theorem mem_bucketGet_buildAdjacency_aux :
    ∀ (E : List DepPair) (m : Adj) (a b : String),
      b ∈ bucketGet (E.foldl buildStep m) a ↔
        b ∈ bucketGet m a ∨ hasEdge E a b := by
  intro E
  induction E with
  | nil => intro m a b; simp [hasEdge]
  | cons e rest ih =>
    intro m a b
    rw [List.foldl_cons, ih, mem_bucketGet_buildStep]
    unfold hasEdge
    simp only [List.mem_cons]
    constructor
    · rintro ((hm | hc) | ⟨e', he', hc'⟩)
      · exact Or.inl hm
      · exact Or.inr ⟨e, Or.inl rfl, hc⟩
      · exact Or.inr ⟨e', Or.inr he', hc'⟩
    · rintro (hm | ⟨e', rfl | he', hc'⟩)
      · exact Or.inl (Or.inl hm)
      · exact Or.inl (Or.inr hc')
      · exact Or.inr ⟨e', he', hc'⟩

/-- The adjacency built from `E` stores exactly the connections of `E`. -/
theorem mem_bucketGet_buildAdjacency (E : List DepPair) (a b : String) :
    b ∈ bucketGet (buildAdjacency E) a ↔ hasEdge E a b := by
  rw [buildAdjacency, mem_bucketGet_buildAdjacency_aux]
  simp [bucketGet]

/-- The DFS loop only ever grows the visited set. -/
theorem dfsList_mono (f : String → List String → Option (Bool × List String))
    (hf : ∀ k s b s', f k s = some (b, s') → s ⊆ s') :
    ∀ (l seen : List String) (b : Bool) (s' : List String),
      dfsList f l seen = some (b, s') → seen ⊆ s' := by
  intro l
  induction l with
  | nil =>
    intro seen b s' h
    simp only [dfsList, Option.some.injEq, Prod.mk.injEq] at h
    exact h.2 ▸ List.Subset.refl seen
  | cons k ks ih =>
    intro seen b s' h
    rw [dfsList] at h
    cases hfk : f k seen with
    | none => rw [hfk] at h; exact absurd h (by simp)
    | some r =>
      obtain ⟨b1, s1⟩ := r
      rw [hfk] at h
      cases b1
      · exact fun x hx => ih s1 b s' h (hf k seen false s1 hfk hx)
      · simp only [Option.some.injEq, Prod.mk.injEq] at h
        exact h.2 ▸ hf k seen true s1 hfk

/-- The DFS only ever grows the visited set. -/
theorem dfsF_mono (adj : Adj) (P : String) :
    ∀ (fuel : Nat) (n : String) (seen : List String) (b : Bool)
      (s' : List String),
      dfsF adj P fuel n seen = some (b, s') → seen ⊆ s' := by
  intro fuel
  induction fuel with
  | zero => intro n seen b s' h; simp [dfsF] at h
  | succ fuel ih =>
    intro n seen b s' h
    rw [dfsF] at h
    by_cases h1 : n = P
    · rw [if_pos h1] at h
      simp only [Option.some.injEq, Prod.mk.injEq] at h
      exact h.2 ▸ List.Subset.refl seen
    · rw [if_neg h1] at h
      by_cases h2 : n ∈ seen
      · rw [if_pos h2] at h
        simp only [Option.some.injEq, Prod.mk.injEq] at h
        exact h.2 ▸ List.Subset.refl seen
      · rw [if_neg h2] at h
        have hsub := dfsList_mono _ (fun k s b s' hk => ih k s b s' hk)
          _ _ _ _ h
        exact fun x hx => hsub (List.mem_cons_of_mem n hx)

/-- A DFS call that answers `true` has found a real path to the target. -/
theorem dfsList_sound (f : String → List String → Option (Bool × List String))
    (R : String → Prop) (hf : ∀ k s s', f k s = some (true, s') → R k) :
    ∀ (l seen s' : List String),
      dfsList f l seen = some (true, s') → ∃ k ∈ l, R k := by
  intro l
  induction l with
  | nil => intro seen s' h; simp [dfsList] at h
  | cons k ks ih =>
    intro seen s' h
    rw [dfsList] at h
    cases hfk : f k seen with
    | none => rw [hfk] at h; exact absurd h (by simp)
    | some r =>
      obtain ⟨b1, s1⟩ := r
      rw [hfk] at h
      cases b1
      · obtain ⟨k', hk', hR⟩ := ih s1 s' h
        exact ⟨k', List.mem_cons_of_mem k hk', hR⟩
      · exact ⟨k, List.mem_cons_self k ks, hf k seen s1 hfk⟩

/-- Soundness: a `true` answer of the DFS means the start reaches `P`. -/
theorem dfsF_sound (adj : Adj) (P : String) :
    ∀ (fuel : Nat) (n : String) (seen s' : List String),
      dfsF adj P fuel n seen = some (true, s') → Reach adj n P := by
  intro fuel
  induction fuel with
  | zero => intro n seen s' h; simp [dfsF] at h
  | succ fuel ih =>
    intro n seen s' h
    rw [dfsF] at h
    by_cases h1 : n = P
    · exact h1 ▸ Reach.refl n
    · rw [if_neg h1] at h
      by_cases h2 : n ∈ seen
      · rw [if_pos h2] at h
        simp at h
      · rw [if_neg h2] at h
        obtain ⟨k, hk, hR⟩ := dfsList_sound _ (fun k => Reach adj k P)
          (fun k s s' hkk => ih k s s' hkk) _ _ _ h
        exact Reach.step hk hR

/-- Failed loop invariant: the loop visited all listed nodes, and every node
    newly visited is dead (not the target, successors all visited). -/
theorem dfsList_false (adj : Adj) (P : String)
    (f : String → List String → Option (Bool × List String))
    (hfm : ∀ k s b s', f k s = some (b, s') → s ⊆ s')
    (hff : ∀ k s s', f k s = some (false, s') → k ∈ s' ∧ GoodFrom adj P s s') :
    ∀ (l seen s' : List String),
      dfsList f l seen = some (false, s') →
        seen ⊆ s' ∧ (∀ k ∈ l, k ∈ s') ∧ GoodFrom adj P seen s' := by
  intro l
  induction l with
  | nil =>
    intro seen s' h
    simp only [dfsList, Option.some.injEq, Prod.mk.injEq] at h
    refine ⟨h.2 ▸ List.Subset.refl seen, by simp, ?_⟩
    intro m hm hnm
    rw [← h.2] at hm
    exact absurd hm hnm
  | cons k ks ih =>
    intro seen s' h
    rw [dfsList] at h
    cases hfk : f k seen with
    | none => rw [hfk] at h; exact absurd h (by simp)
    | some r =>
      obtain ⟨b1, s1⟩ := r
      rw [hfk] at h
      cases b1
      · obtain ⟨hs1s, hks, hg2⟩ := ih s1 s' h
        obtain ⟨hk1, hg1⟩ := hff k seen s1 hfk
        have hsub : seen ⊆ s1 := hfm k seen false s1 hfk
        refine ⟨fun x hx => hs1s (hsub hx), ?_, ?_⟩
        · intro x hx
          rcases List.mem_cons.mp hx with rfl | hx'
          · exact hs1s hk1
          · exact hks x hx'
        · intro m hm hnm
          by_cases hm1 : m ∈ s1
          · obtain ⟨hne, hnb⟩ := hg1 m hm1 hnm
            exact ⟨hne, fun x hx => hs1s (hnb x hx)⟩
          · exact hg2 m hm hm1
      · simp at h

/-- Failed DFS invariant: the start is visited and every newly visited node
    is dead. -/
theorem dfsF_false (adj : Adj) (P : String) :
    ∀ (fuel : Nat) (n : String) (seen s' : List String),
      dfsF adj P fuel n seen = some (false, s') →
        seen ⊆ s' ∧ n ∈ s' ∧ GoodFrom adj P seen s' := by
  intro fuel
  induction fuel with
  | zero => intro n seen s' h; simp [dfsF] at h
  | succ fuel ih =>
    intro n seen s' h
    rw [dfsF] at h
    by_cases h1 : n = P
    · rw [if_pos h1] at h; simp at h
    · rw [if_neg h1] at h
      by_cases h2 : n ∈ seen
      · rw [if_pos h2] at h
        simp only [Option.some.injEq, Prod.mk.injEq] at h
        refine ⟨h.2 ▸ List.Subset.refl seen, h.2 ▸ h2, ?_⟩
        intro m hm hnm
        rw [← h.2] at hm
        exact absurd hm hnm
      · rw [if_neg h2] at h
        obtain ⟨hsub, hall, hg⟩ := dfsList_false adj P _
          (fun k s b s' hk => dfsF_mono adj P fuel k s b s' hk)
          (fun k s s' hk => ⟨(ih k s s' hk).2.1, (ih k s s' hk).2.2⟩)
          _ _ _ h
        refine ⟨fun x hx => hsub (List.mem_cons_of_mem n hx),
          hsub (List.mem_cons_self n seen), ?_⟩
        intro m hm hnm
        by_cases hmn : m = n
        · subst hmn
          exact ⟨h1, fun x hx => hall x hx⟩
        · refine hg m hm ?_
          intro hc
          rcases List.mem_cons.mp hc with hc' | hc'
          · exact hmn hc'
          · exact hnm hc'

/-- Completeness: a failed top-level DFS means the target is unreachable. -/
theorem dfsF_complete (adj : Adj) (P : String) (fuel : Nat) (S : String)
    (s' : List String) (h : dfsF adj P fuel S [] = some (false, s')) :
    ¬ Reach adj S P := by
  obtain ⟨-, hS, hGood⟩ := dfsF_false adj P fuel S [] s' h
  intro hr
  have aux : ∀ x c, Reach adj x c → c = P → x ∈ s' → False := by
    intro x c hxc
    induction hxc with
    | refl y =>
      intro hyP hy
      exact (hGood y hy (by simp)).1 hyP
    | step hmem hbc ihb =>
      intro hcP ha
      exact ihb hcP ((hGood _ ha (by simp)).2 _ hmem)
  exact aux S P hr rfl hS

/-- Filtering with a stronger predicate keeps no more elements. -/
theorem length_filter_le_of_imp (l : List String) (p q : String → Bool)
    (h : ∀ x, q x = true → p x = true) :
    (l.filter q).length ≤ (l.filter p).length := by
  induction l with
  | nil => simp
  | cons a t ih =>
    by_cases hq : q a
    · have hp := h a hq
      simp only [List.filter_cons, hq, hp, if_true, List.length_cons]
      omega
    · simp only [List.filter_cons, hq, Bool.false_eq_true, if_false]
      by_cases hp : p a
      · simp only [hp, if_true, List.length_cons]
        omega
      · simp only [hp, Bool.false_eq_true, if_false]
        exact ih

/-- Filtering with a strictly stronger predicate on a duplicate-free list
    keeps strictly fewer elements. -/
theorem length_filter_lt_of_imp (l : List String) (hnd : l.Nodup)
    (p q : String → Bool) (h : ∀ x, q x = true → p x = true) (a : String)
    (ha : a ∈ l) (hpa : p a = true) (hqa : q a = false) :
    (l.filter q).length < (l.filter p).length := by
  induction l with
  | nil => simp at ha
  | cons b t ih =>
    have hnd' := (List.nodup_cons.mp hnd).2
    rcases List.mem_cons.mp ha with rfl | hat
    · simp only [List.filter_cons, hpa, hqa, if_true, Bool.false_eq_true, if_false,
        List.length_cons]
      have := length_filter_le_of_imp t p q h
      omega
    · by_cases hqb : q b
      · have hpb := h b hqb
        simp only [List.filter_cons, hqb, hpb, if_true, List.length_cons]
        have := ih hnd' hat
        omega
      · simp only [List.filter_cons, hqb, Bool.false_eq_true, if_false]
        by_cases hpb : p b
        · simp only [hpb, if_true, List.length_cons]
          have := ih hnd' hat
          omega
        · simp only [hpb, Bool.false_eq_true, if_false]
          exact ih hnd' hat

/-- Growing the visited set cannot increase the count of unvisited nodes. -/
theorem remCount_le_of_subset (U : List String) (s s' : List String)
    (h : s ⊆ s') : remCount U s' ≤ remCount U s := by
  unfold remCount
  apply length_filter_le_of_imp
  intro x hx
  simp only [decide_eq_true_eq] at hx ⊢
  exact fun hxs => hx (h hxs)

/-- Visiting a fresh candidate node strictly decreases the count. -/
theorem remCount_cons_lt (U seen : List String) (n : String)
    (hn : n ∈ U) (hns : n ∉ seen) :
    remCount U (n :: seen) < remCount U seen := by
  unfold remCount
  refine length_filter_lt_of_imp U.dedup (List.nodup_dedup U) _ _ ?_ n
    (List.mem_dedup.mpr hn) ?_ ?_
  · intro x hx
    simp only [decide_eq_true_eq] at hx ⊢
    exact fun hxs => hx (List.mem_cons_of_mem n hxs)
  · simpa using hns
  · simp

/-- The DFS loop cannot run out of fuel if the callee cannot. -/
theorem dfsList_suff (f : String → List String → Option (Bool × List String))
    (U : List String) (F : Nat)
    (hfm : ∀ k s b s', f k s = some (b, s') → s ⊆ s')
    (hfs : ∀ k s, k ∈ U → remCount U s < F → f k s ≠ none) :
    ∀ (l seen : List String), (∀ k ∈ l, k ∈ U) → remCount U seen < F →
      dfsList f l seen ≠ none := by
  intro l
  induction l with
  | nil => intro seen _ _ h; simp [dfsList] at h
  | cons k ks ih =>
    intro seen hl hc h
    rw [dfsList] at h
    cases hfk : f k seen with
    | none => exact hfs k seen (hl k (List.mem_cons_self k ks)) hc hfk
    | some r =>
      obtain ⟨b1, s1⟩ := r
      rw [hfk] at h
      cases b1
      · refine ih s1 (fun x hx => hl x (List.mem_cons_of_mem k hx)) ?_ h
        exact lt_of_le_of_lt
          (remCount_le_of_subset U seen s1 (hfm k seen false s1 hfk)) hc
      · simp at h

/-- The DFS cannot run out of fuel while unvisited candidates outnumber the
    remaining fuel deficit. -/
theorem dfsF_suff (adj : Adj) (P : String) (U : List String)
    (hadj : ∀ n k, k ∈ bucketGet adj n → k ∈ U) :
    ∀ (fuel : Nat) (n : String) (seen : List String),
      n ∈ U → remCount U seen < fuel → dfsF adj P fuel n seen ≠ none := by
  intro fuel
  induction fuel with
  | zero => intro n seen _ hc; omega
  | succ fuel ih =>
    intro n seen hn hc h
    rw [dfsF] at h
    by_cases h1 : n = P
    · rw [if_pos h1] at h; simp at h
    · rw [if_neg h1] at h
      by_cases h2 : n ∈ seen
      · rw [if_pos h2] at h; simp at h
      · rw [if_neg h2] at h
        refine dfsList_suff _ U fuel
          (fun k s b s' hk => dfsF_mono adj P fuel k s b s' hk)
          (fun k s hk hcs => ih k s hk hcs)
          _ _ (fun k hk => hadj n k hk) ?_ h
        have hlt := remCount_cons_lt U seen n hn h2
        omega

/-- The fuel chosen by `runDfs` is always sufficient: the search returns. -/
theorem runDfs_ne_none (adj : Adj) (P S : String) :
    runDfs adj P S ≠ none := by
  unfold runDfs dfsFuel
  refine dfsF_suff adj P (S :: adjTargets adj)
    (fun n k hk => List.mem_cons_of_mem S (mem_adjTargets_of_mem_bucketGet hk))
    _ S [] (List.mem_cons_self S (adjTargets adj)) ?_
  have h1 : remCount (S :: adjTargets adj) [] ≤
      (S :: adjTargets adj).dedup.length := by
    unfold remCount
    exact List.length_filter_le _ _
  have h2 : (S :: adjTargets adj).dedup.length ≤
      (S :: adjTargets adj).length :=
    (List.dedup_sublist _).length_le
  omega

/-- The DFS loop preserves duplicate-freedom of the visited set. -/
theorem dfsList_nodup (f : String → List String → Option (Bool × List String))
    (hf : ∀ k s b s', f k s = some (b, s') → s.Nodup → s'.Nodup) :
    ∀ (l seen : List String) (b : Bool) (s' : List String),
      dfsList f l seen = some (b, s') → seen.Nodup → s'.Nodup := by
  intro l
  induction l with
  | nil =>
    intro seen b s' h hs
    simp only [dfsList, Option.some.injEq, Prod.mk.injEq] at h
    exact h.2 ▸ hs
  | cons k ks ih =>
    intro seen b s' h hs
    rw [dfsList] at h
    cases hfk : f k seen with
    | none => rw [hfk] at h; exact absurd h (by simp)
    | some r =>
      obtain ⟨b1, s1⟩ := r
      rw [hfk] at h
      cases b1
      · exact ih s1 b s' h (hf k seen false s1 hfk hs)
      · simp only [Option.some.injEq, Prod.mk.injEq] at h
        exact h.2 ▸ hf k seen true s1 hfk hs

/-- The DFS visits each node at most once: the visited set stays
    duplicate-free. -/
theorem dfsF_nodup (adj : Adj) (P : String) :
    ∀ (fuel : Nat) (n : String) (seen : List String) (b : Bool)
      (s' : List String),
      dfsF adj P fuel n seen = some (b, s') → seen.Nodup → s'.Nodup := by
  intro fuel
  induction fuel with
  | zero => intro n seen b s' h; simp [dfsF] at h
  | succ fuel ih =>
    intro n seen b s' h hs
    rw [dfsF] at h
    by_cases h1 : n = P
    · rw [if_pos h1] at h
      simp only [Option.some.injEq, Prod.mk.injEq] at h
      exact h.2 ▸ hs
    · rw [if_neg h1] at h
      by_cases h2 : n ∈ seen
      · rw [if_pos h2] at h
        simp only [Option.some.injEq, Prod.mk.injEq] at h
        exact h.2 ▸ hs
      · rw [if_neg h2] at h
        exact dfsList_nodup _ (fun k s b s' hk => ih k s b s' hk) _ _ _ _ h
          (List.nodup_cons.mpr ⟨h2, hs⟩)

/-- The packaged DFS decides the reachability relation. -/
theorem reaches_iff_Reach (adj : Adj) (a c : String) :
    reaches adj a c = true ↔ Reach adj a c := by
  unfold reaches
  rcases h : runDfs adj c a with - | ⟨b, s'⟩
  · exact absurd h (runDfs_ne_none adj c a)
  · unfold runDfs at h
    cases b
    · constructor
      · intro hF; simp at hF
      · intro hr; exact absurd hr (dfsF_complete adj c _ a s' h)
    · constructor
      · intro _; exact dfsF_sound adj c _ a [] s' h
      · intro _; rfl

/-- The proposed-edge adjacency agrees with the plain one except that `S`
    is appended to `P`'s bucket. -/
theorem bucketGet_proposedAdj (E : List DepPair) (P S n : String) :
    bucketGet (proposedAdj E P S) n =
      if n = P then bucketGet (buildAdjacency E) n ++ [S]
      else bucketGet (buildAdjacency E) n :=
  bucketGet_bucketPush (buildAdjacency E) P S n

/-- Appending the proposed edge P → S cannot change whether any node
    reaches P: the new edge leaves from P itself. -/
theorem Reach_proposedAdj_iff (E : List DepPair) (P S : String) (a : String) :
    Reach (proposedAdj E P S) a P ↔ Reach (buildAdjacency E) a P := by
  constructor
  · intro h
    have aux : ∀ x c, Reach (proposedAdj E P S) x c → c = P →
        Reach (buildAdjacency E) x P := by
      intro x c hxc
      induction hxc with
      | refl y => intro hy; exact hy ▸ Reach.refl y
      | step hmem hbc ihb =>
        intro hcP
        rename_i a' b' c'
        have hb := ihb hcP
        rw [bucketGet_proposedAdj] at hmem
        by_cases haP : a' = P
        · rw [haP]; exact Reach.refl P
        · rw [if_neg haP] at hmem
          exact Reach.step hmem hb
    exact aux a P h rfl
  · intro h
    have aux : ∀ x c, Reach (buildAdjacency E) x c →
        Reach (proposedAdj E P S) x c := by
      intro x c hxc
      induction hxc with
      | refl y => exact Reach.refl y
      | step hmem hbc ihb =>
        rename_i x' y' c'
        refine Reach.step ?_ ihb
        rw [bucketGet_proposedAdj]
        by_cases haP : x' = P
        · rw [if_pos haP]; exact List.mem_append_left _ hmem
        · rw [if_neg haP]; exact hmem
    exact aux a P h

/-- Paths over the edge list and paths over the built adjacency coincide. -/
theorem ReachE_iff_Reach (E : List DepPair) (a b : String) :
    ReachE E a b ↔ Reach (buildAdjacency E) a b := by
  constructor
  · intro h
    induction h with
    | refl x => exact Reach.refl x
    | step he hbc ihb =>
      exact Reach.step ((mem_bucketGet_buildAdjacency E _ _).mpr he) ihb
  · intro h
    induction h with
    | refl x => exact ReachE.refl x
    | step hm hbc ihb =>
      exact ReachE.step ((mem_bucketGet_buildAdjacency E _ _).mp hm) ihb

/-- Paths over the edge list are decided by the DFS on the built adjacency. -/
theorem ReachE_iff_reaches (E : List DepPair) (a b : String) :
    ReachE E a b ↔ reaches (buildAdjacency E) a b = true :=
  (ReachE_iff_Reach E a b).trans (reaches_iff_Reach (buildAdjacency E) a b).symm

/-- For distinct non-null non-empty ids, `wouldCreateCycle` answers exactly
    "the predecessor is reachable from the successor over the current
    edges". -/
theorem wouldCreateCycle_iff_ReachE (E : List DepPair) (p s : JSVal)
    (P S : String) (hp : normalizeId p = some P) (hs : normalizeId s = some S)
    (hP : P ≠ "") (hS : S ≠ "") (hPS : P ≠ S) :
    (wouldCreateCycle E p s = true ↔ ReachE E S P) := by
  unfold wouldCreateCycle
  rw [hp, hs]
  have hPe : ¬ P.isEmpty = true := fun hc => hP ((String.isEmpty_iff P).mp hc)
  have hSe : ¬ S.isEmpty = true := fun hc => hS ((String.isEmpty_iff S).mp hc)
  simp only [hPe, hSe, Bool.or_self]
  rw [if_neg (by simp [hPe, hSe]), if_neg hPS]
  rcases hrun : runDfs (proposedAdj E P S) P S with - | ⟨b, s'⟩
  · exact absurd hrun (runDfs_ne_none _ _ _)
  · unfold runDfs at hrun
    cases b
    · constructor
      · intro hF; simp at hF
      · intro hre
        have hreach : Reach (proposedAdj E P S) S P :=
          (Reach_proposedAdj_iff E P S S).mpr ((ReachE_iff_Reach E S P).mp hre)
        exact absurd hreach (dfsF_complete _ P _ S s' hrun)
    · constructor
      · intro _
        exact (ReachE_iff_Reach E S P).mpr
          ((Reach_proposedAdj_iff E P S S).mp (dfsF_sound _ P _ S [] s' hrun))
      · intro _; rfl

/-- C1: for every acyclic edge list E and distinct non-null non-empty task
    ids A, B with no existing path B → … → A, `wouldCreateCycle(E, A, B)` is
    false and `wouldCreateCycle(E ∪ {A→B}, B, A)` is true; on
    E = {1→2, 2→3}, `wouldCreateCycle(E, 3, 1)` is true and
    `wouldCreateCycle(E, 1, 3)` is false; and in general, for distinct
    non-null non-empty ids, `wouldCreateCycle(E, predId, successorId)`
    returns true exactly when predId is reachable from successorId in the
    current graph E. -/
theorem claim_C1_acyclicity_preservation :
    (∀ (E : List DepPair) (a b : JSVal) (A B : String),
      normalizeId a = some A → normalizeId b = some B →
      A ≠ "" → B ≠ "" → A ≠ B →
      acyclicB E = true → ¬ ReachE E B A →
      wouldCreateCycle E a b = false ∧
        wouldCreateCycle (E ++ [⟨a, b⟩]) b a = true) ∧
    wouldCreateCycle exChain (.num 3) (.num 1) = true ∧
    wouldCreateCycle exChain (.num 1) (.num 3) = false ∧
    (∀ (E : List DepPair) (p q : JSVal) (P S : String),
      normalizeId p = some P → normalizeId q = some S →
      P ≠ "" → S ≠ "" → P ≠ S →
      (wouldCreateCycle E p q = true ↔ ReachE E S P)) := by
  refine ⟨?_, by decide, by decide, ?_⟩
  · intro E a b A B ha hb hA hB hAB hacyc hnr
    constructor
    · cases hwcc : wouldCreateCycle E a b with
      | false => rfl
      | true =>
        exact absurd
          ((wouldCreateCycle_iff_ReachE E a b A B ha hb hA hB hAB).mp hwcc)
          hnr
    · refine (wouldCreateCycle_iff_ReachE (E ++ [⟨a, b⟩]) b a B A hb ha
        hB hA (fun hc => hAB hc.symm)).mpr ?_
      exact ReachE.step
        ⟨⟨a, b⟩, by simp, ha, hb, hA, hB⟩ (ReachE.refl B)
  · intro E p q P S hp hq hP hS hPS
    exact wouldCreateCycle_iff_ReachE E p q P S hp hq hP hS hPS

/-- Witness for C1 at E = {1→2, 2→3}, A = 1, B = 4. -/
theorem claim_C1_witness :
    wouldCreateCycle exChain (.num 1) (.num 4) = false ∧
      wouldCreateCycle (exChain ++ [⟨.num 1, .num 4⟩]) (.num 4) (.num 1)
        = true :=
  claim_C1_acyclicity_preservation.1 exChain (.num 1) (.num 4) "1" "4"
    rfl rfl (by decide) (by decide) (by decide) (by decide)
    (fun h => absurd ((ReachE_iff_reaches exChain "4" "1").mp h) (by decide))

/-- C2 as stated is false: at predecessor id 0 and successor id 0 the ids
    are equal (and neither is null), yet the gate rejects with the
    missing-endpoint error rather than the self-dependency error, because
    the guarded handler tests `!predecessorTaskId || !successorTaskId`
    (falsiness, which numeric 0 satisfies) before the self-dependency
    comparison. -/
theorem claim_C2_counterexample :
    canProposeEdge [] (JSVal.num 0) (JSVal.num 0) =
        .error .MissingEndpoint ∧
    jsString (JSVal.num 0) = jsString (JSVal.num 0) ∧
    JSVal.num 0 ≠ JSVal.null ∧
    RejectionReason.MissingEndpoint ≠ RejectionReason.SelfDependency :=
  ⟨rfl, rfl, by decide, by decide⟩

/-- C2 amended: the gate checks MissingEndpoint first (on falsy ids, which
    includes null, numeric 0 and the empty string), then SelfDependency on
    string-converted ids, then DuplicateEdge, then CycleDetected, and
    otherwise succeeds; `canProposeEdge(E, "7", "7")` fails with
    SelfDependency for every E; for E = {1→2, 1→3},
    `canProposeEdge(E, 1, 2)` fails with DuplicateEdge and
    `canProposeEdge(E, 3, 2)` succeeds. -/
theorem claim_C2_amended_gate :
    (∀ (E : List DepPair) (p s : JSVal),
      ((!p.truthy || !s.truthy) = true →
        canProposeEdge E p s = .error .MissingEndpoint) ∧
      (p.truthy = true → s.truthy = true → jsString p = jsString s →
        canProposeEdge E p s = .error .SelfDependency) ∧
      (p.truthy = true → s.truthy = true → jsString p ≠ jsString s →
        isDuplicateEdge E p s = true →
        canProposeEdge E p s = .error .DuplicateEdge) ∧
      (p.truthy = true → s.truthy = true → jsString p ≠ jsString s →
        isDuplicateEdge E p s = false → wouldCreateCycle E p s = true →
        canProposeEdge E p s = .error .CycleDetected) ∧
      (p.truthy = true → s.truthy = true → jsString p ≠ jsString s →
        isDuplicateEdge E p s = false → wouldCreateCycle E p s = false →
        canProposeEdge E p s = .ok ())) ∧
    (∀ (E : List DepPair),
      canProposeEdge E (.str "7") (.str "7") = .error .SelfDependency) ∧
    canProposeEdge exFan (.num 1) (.num 2) = .error .DuplicateEdge ∧
    canProposeEdge exFan (.num 3) (.num 2) = .ok () := by
  refine ⟨?_, fun E => rfl, rfl, rfl⟩
  intro E p s
  refine ⟨?_, ?_, ?_, ?_, ?_⟩
  · intro h
    unfold canProposeEdge
    rw [if_pos h]
  · intro hp hs heq
    unfold canProposeEdge
    rw [if_neg (by simp [hp, hs]), if_pos heq]
  · intro hp hs hne hdup
    unfold canProposeEdge
    rw [if_neg (by simp [hp, hs]), if_neg hne, if_pos hdup]
  · intro hp hs hne hdup hcyc
    unfold canProposeEdge
    rw [if_neg (by simp [hp, hs]), if_neg hne, if_neg (by simp [hdup]),
      if_pos hcyc]
  · intro hp hs hne hdup hcyc
    unfold canProposeEdge
    rw [if_neg (by simp [hp, hs]), if_neg hne, if_neg (by simp [hdup]),
      if_neg (by simp [hcyc])]

/-- Witness for C2 (amended) at E = {1→2, 1→3}, ids 2 and 3: no missing
    endpoint, no self loop, no duplicate, no cycle, so the gate succeeds. -/
theorem claim_C2_witness :
    canProposeEdge exFan (JSVal.num 2) (JSVal.num 3) = .ok () :=
  ((claim_C2_amended_gate.1 exFan (JSVal.num 2) (JSVal.num 3)).2.2.2.2)
    (by decide) (by decide) (by decide) (by decide) (by decide)

/-- C3: `isDuplicateEdge(E, predId, successorId)` is true exactly when some
    edge of E has the same ordered string-normalized endpoint pair (so
    numeric 1 equals string "1"); it is order-sensitive: an edge A→B makes
    `isDuplicateEdge(E, A, B)` true while `isDuplicateEdge(E, B, A)` is
    false unless an edge B→A is also present. -/
theorem claim_C3_duplicate_order_sensitive :
    (∀ (E : List DepPair) (p s : JSVal),
      isDuplicateEdge E p s = true ↔
        ∃ e ∈ E, normalizeId e.predId = normalizeId p ∧
          normalizeId e.succId = normalizeId s) ∧
    (∀ (E : List DepPair) (e : DepPair), e ∈ E →
      isDuplicateEdge E e.predId e.succId = true) ∧
    isDuplicateEdge [⟨.num 1, .num 2⟩] (.str "1") (.str "2") = true ∧
    isDuplicateEdge [⟨.num 1, .num 2⟩] (.num 2) (.num 1) = false := by
  have hiff : ∀ (E : List DepPair) (p s : JSVal),
      isDuplicateEdge E p s = true ↔
        ∃ e ∈ E, normalizeId e.predId = normalizeId p ∧
          normalizeId e.succId = normalizeId s := by
    intro E p s
    unfold isDuplicateEdge
    rw [List.any_eq_true]
    constructor
    · rintro ⟨e, he, hc⟩
      rw [Bool.and_eq_true, beq_iff_eq, beq_iff_eq] at hc
      exact ⟨e, he, hc.1, hc.2⟩
    · rintro ⟨e, he, h1, h2⟩
      refine ⟨e, he, ?_⟩
      rw [Bool.and_eq_true, beq_iff_eq, beq_iff_eq]
      exact ⟨h1, h2⟩
  exact ⟨hiff, fun E e he => (hiff E e.predId e.succId).mpr ⟨e, he, rfl, rfl⟩,
    by decide, by decide⟩

/-- Witness for C3: the edge 1→3 of E = {1→2, 1→3} is reported duplicate. -/
theorem claim_C3_witness :
    isDuplicateEdge exFan (JSVal.num 1) (JSVal.num 3) = true :=
  claim_C3_duplicate_order_sensitive.2.1 exFan ⟨.num 1, .num 3⟩ (by decide)

/-- C4: `wouldCreateCycle(E, X, X)` is true for every edge list E and every
    id X, and `wouldCreateCycle` is true whenever either id is null or
    empty, regardless of E. -/
theorem claim_C4_selfloop_and_null :
    (∀ (E : List DepPair) (X : JSVal), wouldCreateCycle E X X = true) ∧
    (∀ (E : List DepPair) (p s : JSVal),
      p.isNullish = true ∨ p = .str "" ∨ s.isNullish = true ∨ s = .str "" →
      wouldCreateCycle E p s = true) := by
  constructor
  · intro E X
    unfold wouldCreateCycle
    cases hX : normalizeId X with
    | none => rfl
    | some P =>
      by_cases hPe : P.isEmpty = true
      · simp [hPe]
      · simp [hPe]
  · intro E p s h
    unfold wouldCreateCycle
    rcases h with h | h | h | h
    · rw [show normalizeId p = none by unfold normalizeId; rw [h]; rfl]
    · subst h
      rw [show normalizeId (JSVal.str "") = some "" from rfl]
      cases normalizeId s with
      | none => rfl
      | some S => simp [show String.isEmpty "" = true from by decide]
    · rw [show normalizeId s = none by unfold normalizeId; rw [h]; rfl]
      cases normalizeId p <;> rfl
    · subst h
      rw [show normalizeId (JSVal.str "") = some "" from rfl]
      cases normalizeId p with
      | none => rfl
      | some P =>
        simp [show String.isEmpty "" = true from by decide, Bool.or_true]

/-- Witness for C4 at a null predecessor id. -/
theorem claim_C4_witness :
    wouldCreateCycle exChain JSVal.null (JSVal.num 3) = true :=
  claim_C4_selfloop_and_null.2 exChain JSVal.null (JSVal.num 3) (Or.inl rfl)

/-- C5: normalization drops exactly the raw records whose extracted
    predecessor or successor id is missing (nullish or empty) and keeps all
    others, with the link type extracted by `getType` (default "FS",
    upper-cased) and the lag coerced by `getLag`; the record
    {PredecessorId: "5", SuccessorId: "9", Lag: "3"} normalizes to the edge
    ("5", "9", "FS", 3), and a record with no predecessor and successor
    fields is absent from the output. -/
theorem claim_C5_normalization :
    (∀ (l1 l2 : List RawDep) (d : RawDep),
      (idMissing (getPredId d) || idMissing (getSuccId d)) = true →
      depPairs (l1 ++ d :: l2) = depPairs l1 ++ depPairs l2) ∧
    (∀ (l1 l2 : List RawDep) (d : RawDep) (p s : String),
      normalizeId (getPredId d) = some p →
      normalizeId (getSuccId d) = some s →
      p ≠ "" → s ≠ "" →
      depPairs (l1 ++ d :: l2) =
        depPairs l1 ++
          { depId := getDepId d, predId := p, succId := s,
            type := getType d, lag := getLag d, raw := d } :: depPairs l2) ∧
    depPairs [recLag] = [edge59] ∧
    depPairs [recBare] = [] := by
  have hnone : ∀ d : RawDep,
      (idMissing (getPredId d) || idMissing (getSuccId d)) = true →
      normRecord d = none := by
    intro d h
    unfold idMissing at h
    unfold normRecord
    cases hp : normalizeId (getPredId d) with
    | none => rfl
    | some p =>
      cases hq : normalizeId (getSuccId d) with
      | none => rfl
      | some q =>
        rw [hp, hq] at h
        simp only [Bool.or_eq_true] at h
        rcases h with h | h <;> simp [h]
  have hsome : ∀ (d : RawDep) (p s : String),
      normalizeId (getPredId d) = some p →
      normalizeId (getSuccId d) = some s → p ≠ "" → s ≠ "" →
      normRecord d = some
        { depId := getDepId d, predId := p, succId := s,
          type := getType d, lag := getLag d, raw := d } := by
    intro d p s hp hs hp0 hs0
    unfold normRecord
    rw [hp, hs]
    have h1 : p.isEmpty = false := by
      cases hpe : p.isEmpty
      · rfl
      · exact absurd ((String.isEmpty_iff p).mp hpe) hp0
    have h2 : s.isEmpty = false := by
      cases hse : s.isEmpty
      · rfl
      · exact absurd ((String.isEmpty_iff s).mp hse) hs0
    simp only [h1, h2, Bool.or_self, Bool.false_eq_true, if_false]
  refine ⟨?_, ?_, by decide, by decide⟩
  · intro l1 l2 d h
    unfold depPairs
    rw [List.filterMap_append, List.filterMap_cons_none (hnone d h)]
  · intro l1 l2 d p s hp hs hp0 hs0
    unfold depPairs
    rw [List.filterMap_append,
      List.filterMap_cons_some (hsome d p s hp hs hp0 hs0)]

/-- Witness for C5 at the spec's scenario-3 record. -/
theorem claim_C5_witness :
    depPairs ([] ++ recLag :: []) = depPairs [] ++ edge59 :: depPairs [] :=
  claim_C5_normalization.2.1 [] [] recLag "5" "9" rfl rfl
    (by decide) (by decide)

/-- C6 as stated is false for the normalization used by the graph engine
    (part_000): its `getType` does not consult `DependencyType`, so a record
    whose only link-type field is `DependencyType: "ss"` normalizes to the
    default "FS" instead of "SS". -/
theorem claim_C6_counterexample :
    recDT.DependencyType = JSVal.str "ss" ∧
    recDT.LinkType = JSVal.undef ∧ recDT.linkType = JSVal.undef ∧
    recDT.dependencyType = JSVal.undef ∧ recDT.Type' = JSVal.undef ∧
    recDT.type = JSVal.undef ∧
    getType recDT = "FS" ∧ getType recDT ≠ "SS" ∧
    depPairs [recDT] =
      [{ depId := none, predId := "1", succId := "2", type := "FS",
         lag := 0, raw := recDT }] := by
  refine ⟨rfl, rfl, rfl, rfl, rfl, rfl, by decide, by decide, by decide⟩

/-- C6 amended: the part_001 variant's `getType` consults the full alias
    list `LinkType | linkType | DependencyType | dependencyType | Type |
    type` in that priority order and upper-cases the first present value,
    so a record whose only link-type field is `DependencyType` (or
    `dependencyType`) yields that value upper-cased there; the part_000
    variant's `getType` omits the `DependencyType`/`dependencyType`
    aliases, and such a record yields the default "FS" in part_000's
    normalization. -/
theorem claim_C6_amended_linktype :
    ∀ (d : RawDep) (v : String),
      d.LinkType.isNullish = true → d.linkType.isNullish = true →
      d.Type'.isNullish = true → d.type.isNullish = true →
      ((d.DependencyType = .str v →
          getType_v1 d = jsToUpper v ∧ getType d = "FS") ∧
       (d.DependencyType.isNullish = true → d.dependencyType = .str v →
          getType_v1 d = jsToUpper v ∧ getType d = "FS")) := by
  intro d v h1 h2 h3 h4
  have hFS : getType d = "FS" := by
    simp only [getType, jsCoalesce, h1, h2, h3, h4, if_true]
    rfl
  constructor
  · intro h5
    refine ⟨?_, hFS⟩
    have h5n : d.DependencyType.isNullish = false := by rw [h5]; rfl
    simp only [getType_v1, jsCoalesce, h1, h2, h5n, if_true,
      Bool.false_eq_true, if_false, h5]
    rfl
  · intro h5 h6
    refine ⟨?_, hFS⟩
    have h6n : d.dependencyType.isNullish = false := by rw [h6]; rfl
    simp only [getType_v1, jsCoalesce, h1, h2, h5, h6n, if_true,
      Bool.false_eq_true, if_false, h6]
    rfl

/-- Witness for C6 (amended) at the record whose only link-type field is
    `DependencyType: "ss"`. -/
theorem claim_C6_witness :
    getType_v1 recDT = jsToUpper "ss" ∧ getType recDT = "FS" :=
  (claim_C6_amended_linktype recDT "ss" rfl rfl rfl rfl).1 rfl

/-- C7: every normalized edge A→B is indexed under key B in
    predecessorsByTask and under key A in successorsByTask, under no other
    key in either index, and every edge stored in either index comes from
    the normalized edge list. -/
theorem claim_C7_index_consistency :
    ∀ (l : List NormEdge) (e : NormEdge) (k : String),
      (e ∈ l →
        e ∈ bucketGet (predecessorsByTask l) e.succId ∧
        e ∈ bucketGet (successorsByTask l) e.predId) ∧
      (e ∈ bucketGet (predecessorsByTask l) k → e ∈ l ∧ k = e.succId) ∧
      (e ∈ bucketGet (successorsByTask l) k → e ∈ l ∧ k = e.predId) := by
  intro l e k
  refine ⟨fun he => ⟨?_, ?_⟩, fun h => ?_, fun h => ?_⟩
  · unfold predecessorsByTask
    exact (mem_bucketGet_foldl (fun x : NormEdge => x.succId) l [] e
      e.succId).mpr (Or.inr ⟨he, rfl⟩)
  · unfold successorsByTask
    exact (mem_bucketGet_foldl (fun x : NormEdge => x.predId) l [] e
      e.predId).mpr (Or.inr ⟨he, rfl⟩)
  · unfold predecessorsByTask at h
    rcases (mem_bucketGet_foldl (fun x : NormEdge => x.succId) l [] e k).mp h
      with hm | ⟨hl, hk⟩
    · simp [bucketGet] at hm
    · exact ⟨hl, hk.symm⟩
  · unfold successorsByTask at h
    rcases (mem_bucketGet_foldl (fun x : NormEdge => x.predId) l [] e k).mp h
      with hm | ⟨hl, hk⟩
    · simp [bucketGet] at hm
    · exact ⟨hl, hk.symm⟩

/-- Witness for C7 at the singleton normalized edge list [5→9]. -/
theorem claim_C7_witness :
    edge59 ∈ bucketGet (predecessorsByTask [edge59]) "9" ∧
    edge59 ∈ bucketGet (successorsByTask [edge59]) "5" :=
  (claim_C7_index_consistency [edge59] edge59 "0").1 (by decide)

/-- C8: the DFS inside `wouldCreateCycle` terminates on every finite edge
    list and every pair of ids (cyclic graphs included): with the fuel
    chosen by `runDfs` it always returns a result, its visited set holds
    each node at most once, and it answers true exactly when the target
    `P` is reachable from the start `S`. -/
theorem claim_C8_termination :
    ∀ (E : List DepPair) (P S : String),
      ∃ (b : Bool) (seen : List String),
        runDfs (proposedAdj E P S) P S = some (b, seen) ∧
        seen.Nodup ∧
        (b = true ↔ Reach (proposedAdj E P S) S P) := by
  intro E P S
  rcases hrun : runDfs (proposedAdj E P S) P S with - | ⟨b, seen⟩
  · exact absurd hrun (runDfs_ne_none _ _ _)
  · have hrun' := hrun
    unfold runDfs at hrun'
    refine ⟨b, seen, rfl, ?_, ?_⟩
    · exact dfsF_nodup _ _ _ _ _ _ _ hrun' List.nodup_nil
    · cases b
      · exact iff_of_false (by simp) (dfsF_complete _ _ _ _ _ hrun')
      · exact iff_of_true rfl (dfsF_sound _ _ _ _ _ _ hrun')

/-- C9: the edge appended to the adjacency before the search plays no role
    in the outcome — for distinct non-null non-empty ids,
    `wouldCreateCycle(E, P, S)` equals plain reachability of P from S over
    the edges of E alone, and reachability of P from S is unchanged by
    appending the proposed edge P → S. -/
theorem claim_C9_appended_edge_no_role :
    ∀ (E : List DepPair) (p s : JSVal) (P S : String),
      normalizeId p = some P → normalizeId s = some S →
      P ≠ "" → S ≠ "" → P ≠ S →
      (wouldCreateCycle E p s = true ↔ ReachE E S P) ∧
      (Reach (proposedAdj E P S) S P ↔ Reach (buildAdjacency E) S P) := by
  intro E p s P S hp hs hP hS hPS
  exact ⟨wouldCreateCycle_iff_ReachE E p s P S hp hs hP hS hPS,
    Reach_proposedAdj_iff E P S S⟩

/-- Witness for C9 at E = {1→2, 2→3}, proposed edge 3 → 1. -/
theorem claim_C9_witness :
    (wouldCreateCycle exChain (.num 3) (.num 1) = true ↔
      ReachE exChain "1" "3") ∧
    (Reach (proposedAdj exChain "3" "1") "1" "3" ↔
      Reach (buildAdjacency exChain) "1" "3") :=
  claim_C9_appended_edge_no_role exChain (.num 3) (.num 1) "3" "1" rfl rfl
    (by decide) (by decide) (by decide)

/-- C10: the guarded handler rejects any falsy endpoint id — in particular
    numeric 0 and the empty string — with the missing-endpoint error
    ("Predecessor and successor are required"), before the self-dependency,
    duplicate and cycle checks, for every edge list; an edge touching task
    id 0 can never pass this gate. -/
theorem claim_C10_falsy_endpoints :
    (∀ (E : List DepPair) (s : JSVal),
      canProposeEdge E (.num 0) s = .error .MissingEndpoint) ∧
    (∀ (E : List DepPair) (p : JSVal),
      canProposeEdge E p (.num 0) = .error .MissingEndpoint) ∧
    (∀ (E : List DepPair) (s : JSVal),
      canProposeEdge E (.str "") s = .error .MissingEndpoint) ∧
    (∀ (E : List DepPair) (p : JSVal),
      canProposeEdge E p (.str "") = .error .MissingEndpoint) := by
  refine ⟨fun E s => rfl, fun E p => ?_, fun E s => rfl, fun E p => ?_⟩
  · unfold canProposeEdge
    rw [show (!JSVal.truthy (JSVal.num 0)) = true from by decide,
      Bool.or_true, if_pos rfl]
  · unfold canProposeEdge
    rw [show (!JSVal.truthy (JSVal.str "")) = true from by decide,
      Bool.or_true, if_pos rfl]
